import Mathlib

/-!
Verification development for the ESGChatbot drag-and-drop quiz component
(src/DragDropQuiz.tsx, with types from the repository's types module).

The component state is a JavaScript object mapping target ids to the id of
the item currently placed there, or null.  We embed such an object as an
association list of pairs, kept in property-insertion order, together with
JS-faithful read, write and scan operations:

  - reading a missing property yields undefined; every consumer of the map
    treats undefined and null alike (both are falsy and both fail the
    strict equality test against a string), so a read is `Option String`
    with `none` covering both;
  - writing an existing property overwrites it in place, writing a new one
    appends it at the end of the insertion order;
  - Object.keys / Object.values enumerate in insertion order.

All definitions below are transcribed from the source component.
-/

namespace ESGChatbot

/-- Item of a drag-and-drop quiz node (DragDropQuizItem in types). -/
structure DragDropQuizItem where
  id : String
  textKey : String
deriving DecidableEq, Repr

/-- Target of a drag-and-drop quiz node (DragDropQuizTarget in types). -/
structure DragDropQuizTarget where
  id : String
  label : String
  correctItemId : String
deriving DecidableEq, Repr

/-- The fields of a DragDropQuizNode that the quiz component consumes. -/
structure DragDropQuizNode where
  text : String
  items : List DragDropQuizItem
  targets : List DragDropQuizTarget
  nextNode : String
  incorrectNextNode : String
deriving DecidableEq, Repr

/-- A JS object from target id to assigned item id or null, in property
insertion order (type Placements = Record of String to String-or-null). -/
abbrev Placements := List (String × Option String)

/-- The ids of a node's items. -/
def itemIds (node : DragDropQuizNode) : List String :=
  node.items.map DragDropQuizItem.id

/-- The ids of a node's targets. -/
def targetIds (node : DragDropQuizNode) : List String :=
  node.targets.map DragDropQuizTarget.id

/-- Object.keys of a placements object, in insertion order. -/
def keysOf (p : Placements) : List String :=
  p.map Prod.fst

/-- Object.values of a placements object, in insertion order. -/
def valuesOf (p : Placements) : List (Option String) :=
  p.map Prod.snd

/-- Reading property k of the object: the stored value, or none when the
property is missing (undefined). -/
def getKey : Placements → String → Option String
  | [], _ => none
  | kv :: rest, k => if kv.1 = k then kv.2 else getKey rest k

/-- Whether property k is present on the object. -/
def hasKey : Placements → String → Bool
  | [], _ => false
  | kv :: rest, k => if kv.1 = k then true else hasKey rest k

/-- Overwrite every pair whose key is k (on a well-formed object there is at
most one) with the value v, keeping positions. -/
def setKeyGo : Placements → String → Option String → Placements
  | [], _, _ => []
  | kv :: rest, k, v =>
      if kv.1 = k then (kv.1, v) :: setKeyGo rest k v
      else kv :: setKeyGo rest k v

/-- JS property write p[k] = v: overwrite in place when the property exists,
append a new property at the end of the insertion order otherwise. -/
def setKey (p : Placements) (k : String) (v : Option String) : Placements :=
  if hasKey p k then setKeyGo p k v else p ++ [(k, v)]

/-- The loop over Object.keys(newPlacements) at the start of handleDrop that
nulls out every spot currently holding the dragged item. -/
def vacate (p : Placements) (d : String) : Placements :=
  p.map (fun kv => if kv.2 = some d then (kv.1, none) else kv)

/-- Object.keys(placements).find of the key whose value strict-equals the
dragged item id (the oldTargetKey lookup in handleDrop). -/
def oldTargetKey (p : Placements) (d : String) : Option String :=
  (keysOf p).find? (fun k => decide (getKey p k = some d))

/-- The handleDrop handler of the component, as a function of the current
draggedItem state, the current placements and the drop target id.  Mirrors
the source line by line: an early return when draggedItem is falsy
(null or the empty string), the vacating loop, the write of the dragged
item into the target (a JS property write, which appends a fresh key when
targetId is not a property of the object, as happens for the pseudo-target
id of the unplaced pool), and the swap of a truthy displaced occupant into
the key the dragged item came from when that key is truthy.  The source's
local constants newPlacements / existingItemInTarget are inlined: each
occurrence of the setKey-of-vacate expression denotes the single object the
source builds and then mutates. -/
def handleDrop : Option String → Placements → String → Placements
  | none, p, _ => p
  | some d, p, targetId =>
    if d = "" then p
    else
      match getKey (vacate p d) targetId with
      | none => setKey (vacate p d) targetId (some d)
      | some e =>
        if e = "" then setKey (vacate p d) targetId (some d)
        else
          match oldTargetKey p d with
          | none => setKey (vacate p d) targetId (some d)
          | some k0 =>
            if k0 = "" then setKey (vacate p d) targetId (some d)
            else setKey (setKey (vacate p d) targetId (some d)) k0 (some e)

/-- node.targets.reduce building the initial placements: acc[target.id] =
null for each target in order. -/
def initialPlacements (targets : List DragDropQuizTarget) : Placements :=
  targets.foldl (fun acc t => setKey acc t.id none) []

/-- shuffledItems.filter of the items whose id appears as no value of the
placements object (the unplacedItems constant of the component). -/
def unplacedItems (items : List DragDropQuizItem) (p : Placements) :
    List DragDropQuizItem :=
  items.filter (fun it => decide (some it.id ∉ valuesOf p))

/-- The allPlaced flag: unplacedItems.length === 0. -/
def allPlaced (items : List DragDropQuizItem) (p : Placements) : Bool :=
  (unplacedItems items p).length == 0

/-- The isCorrect computation of handleCheckAnswer:
node.targets.every(target => placements[target.id] === target.correctItemId).
A missing or null entry strict-equals no string, hence fails the test. -/
def checkCorrectness (targets : List DragDropQuizTarget) (p : Placements) :
    Bool :=
  targets.all (fun t => decide (getKey p t.id = some t.correctItemId))

/-- Modelled from the spec: the completeness predicate `isComplete(targets,
placements)` — true iff every target id has a non-null assigned item — which
the specification postulates as the gate for submission.  The component
itself has no such function (it gates the submit button on the allPlaced
flag instead); this definition follows the spec's words so the two can be
compared. -/
def isComplete (targets : List DragDropQuizTarget) (p : Placements) : Bool :=
  targets.all (fun t => decide (getKey p t.id ≠ none))

/-!
Model of [...node.items].sort(comparator) with the impure comparator
() => Math.random() - 0.5.  ECMAScript leaves the resulting order
implementation-defined for an inconsistent comparator, but the result is
always a rearrangement of the array's elements.  We model the engine's sort
as an insertion sort whose individual comparison outcomes are read from an
oracle of booleans (true: keep scanning past the current element; false,
or an exhausted oracle stands for any fixed outcome: stop here / append at
the end), so that quantifying over the oracle quantifies over every
behaviour of the randomness source.
-/

/-- Insert one element into an already-built list, consuming comparison
outcomes from the oracle; an exhausted oracle sends the element to the end. -/
def insertShuffled (x : DragDropQuizItem) :
    List DragDropQuizItem → List Bool → List DragDropQuizItem × List Bool
  | [], o => ([x], o)
  | y :: ys, [] => (y :: (insertShuffled x ys []).1, [])
  | y :: ys, b :: o =>
      if b then (y :: (insertShuffled x ys o).1, (insertShuffled x ys o).2)
      else (x :: y :: ys, o)

/-- Fold the insertion over the input array. -/
def jsSortAux : List DragDropQuizItem → List DragDropQuizItem → List Bool →
    List DragDropQuizItem
  | acc, [], _ => acc
  | acc, x :: xs, o =>
      jsSortAux (insertShuffled x acc o).1 xs (insertShuffled x acc o).2

/-- The shuffledItems computation: some oracle-determined rearrangement of
node.items. -/
def jsSort (items : List DragDropQuizItem) (o : List Bool) :
    List DragDropQuizItem :=
  jsSortAux [] items o

/-- Pointwise description of the vacating loop. -/
def vacSpec (p : Placements) (d k : String) : Option String :=
  if getKey p k = some d then none else getKey p k

/-- Pointwise description of one handleDrop call with a truthy dragged item:
the value the resulting object holds at each key. -/
def dropSpec (p : Placements) (d T k : String) : Option String :=
  if k = T then some d
  else
    match vacSpec p d T with
    | none => vacSpec p d k
    | some e =>
      if e = "" then vacSpec p d k
      else
        match oldTargetKey p d with
        | none => vacSpec p d k
        | some k0 =>
          if k0 = "" then vacSpec p d k
          else if k = k0 then some e else vacSpec p d k

/-- Every value assigned somewhere is an injective function of its key. -/
def InjOnKeys (p : Placements) : Prop :=
  ∀ k1 k2 b, getKey p k1 = some b → getKey p k2 = some b → k1 = k2

/-- States reachable from the initial all-unassigned placements by any
sequence of handleDrop calls, with arbitrary draggedItem state and arbitrary
drop-target id: a superset of everything the component's event flow can
produce. -/
inductive ReachDrop (targets : List DragDropQuizTarget) : Placements → Prop
  | init : ReachDrop targets (initialPlacements targets)
  | step {p : Placements} (dOpt : Option String) (T : String) :
      ReachDrop targets p → ReachDrop targets (handleDrop dOpt p T)

/-- Placements-and-draggedItem states reachable through the component's
actual event handlers: a drag can only start on a rendered item (every
draggable element carries the id of one of node.items), drag end clears the
dragged id, and a drop lands either on a real target's drop zone or on the
unplaced pool's drop zone, whose pseudo-target id is the string unplaced;
handleDrop then runs and draggedItem is cleared. -/
inductive ReachUI (node : DragDropQuizNode) :
    Placements → Option String → Prop
  | init : ReachUI node (initialPlacements node.targets) none
  | dragStart {p : Placements} {dOpt : Option String} (i : String) :
      ReachUI node p dOpt → i ∈ itemIds node → ReachUI node p (some i)
  | dragEnd {p : Placements} {dOpt : Option String} :
      ReachUI node p dOpt → ReachUI node p none
  | drop {p : Placements} {dOpt : Option String} (T : String) :
      ReachUI node p dOpt → (T ∈ targetIds node ∨ T = "unplaced") →
      ReachUI node (handleDrop dOpt p T) none

/-- States reachable by drops restricted to the node's own data: the dragged
id is one of the node's item ids and the drop target is one of the node's
real target ids (no drop on the unplaced pool's pseudo-target). -/
inductive ReachGood (node : DragDropQuizNode) : Placements → Prop
  | init : ReachGood node (initialPlacements node.targets)
  | dropNone {p : Placements} (T : String) : ReachGood node p →
      ReachGood node (handleDrop none p T)
  | drop {p : Placements} (d T : String) : ReachGood node p →
      d ∈ itemIds node → T ∈ targetIds node →
      ReachGood node (handleDrop (some d) p T)

/-- The three-pillar example node of the specification: items a, b, c and
targets E, S, G whose correct items are a, b, c respectively. -/
def node3 : DragDropQuizNode :=
  { text := "quiz_text"
    items := [⟨"a", "ka"⟩, ⟨"b", "kb"⟩, ⟨"c", "kc"⟩]
    targets := [⟨"E", "Environmental", "a"⟩, ⟨"S", "Social", "b"⟩,
                ⟨"G", "Governance", "c"⟩]
    nextNode := "right"
    incorrectNextNode := "wrong" }

/-- The placements object reached by dropping a on E, b on S, c on G and
finally dragging c from G onto the unplaced pool. -/
def pStar : Placements :=
  [("E", some "a"), ("S", some "b"), ("G", none), ("unplaced", some "c")]

/-- The all-correct run of the spec's example: a dropped on E, b on S,
c on G. -/
def pGood : Placements :=
  handleDrop (some "c")
    (handleDrop (some "b")
      (handleDrop (some "a") (initialPlacements node3.targets) "E") "S") "G"

/-- The swapped run of the spec's example: a dropped on S, b on E, c on G. -/
def pBad : Placements :=
  handleDrop (some "c")
    (handleDrop (some "b")
      (handleDrop (some "a") (initialPlacements node3.targets) "S") "E") "G"

@[simp] theorem keysOf_nil : keysOf [] = [] := rfl

@[simp] theorem keysOf_cons (kv : String × Option String) (p : Placements) :
    keysOf (kv :: p) = kv.1 :: keysOf p := rfl

@[simp] theorem valuesOf_nil : valuesOf [] = [] := rfl

@[simp] theorem valuesOf_cons (kv : String × Option String) (p : Placements) :
    valuesOf (kv :: p) = kv.2 :: valuesOf p := rfl

theorem hasKey_iff {p : Placements} {k : String} :
    hasKey p k = true ↔ k ∈ keysOf p := by
  induction p with
  | nil => simp [hasKey]
  | cons kv rest ih =>
    obtain ⟨a, v⟩ := kv
    by_cases h : a = k
    · subst h
      simp [hasKey]
    · have h' : ¬ k = a := fun e => h e.symm
      simp [hasKey, h, h', ih]

theorem getKey_eq_none_of_not_mem {p : Placements} {k : String}
    (h : k ∉ keysOf p) : getKey p k = none := by
  induction p with
  | nil => rfl
  | cons kv rest ih =>
    obtain ⟨a, v⟩ := kv
    simp only [keysOf_cons, List.mem_cons, not_or] at h
    have h1 : ¬ a = k := fun e => h.1 e.symm
    simp [getKey, h1, ih h.2]

theorem mem_keysOf_of_getKey {p : Placements} {k : String}
    (h : getKey p k ≠ none) : k ∈ keysOf p := by
  by_contra hm
  exact h (getKey_eq_none_of_not_mem hm)

theorem getKey_mem {p : Placements} {k : String} {b : String}
    (h : getKey p k = some b) : (k, some b) ∈ p := by
  induction p with
  | nil => simp [getKey] at h
  | cons kv rest ih =>
    obtain ⟨a, v⟩ := kv
    by_cases hk : a = k
    · subst hk
      simp only [getKey, if_pos rfl] at h
      subst h
      exact List.mem_cons_self _ _
    · simp only [getKey, if_neg hk] at h
      exact List.mem_cons_of_mem _ (ih h)

theorem getKey_of_mem_keysOf {p : Placements} {k : String}
    (h : k ∈ keysOf p) : (k, getKey p k) ∈ p := by
  induction p with
  | nil => simp at h
  | cons kv rest ih =>
    obtain ⟨a, v⟩ := kv
    by_cases hk : a = k
    · subst hk
      simp [getKey]
    · have hr : k ∈ keysOf rest := by
        rcases List.mem_cons.mp h with h1 | h1
        · exact absurd h1.symm hk
        · exact h1
      have hgk : getKey ((a, v) :: rest) k = getKey rest k := by
        simp [getKey, hk]
      rw [hgk]
      exact List.mem_cons_of_mem _ (ih hr)

theorem getKey_eq_of_mem {p : Placements} {kv : String × Option String}
    (hnd : (keysOf p).Nodup) (h : kv ∈ p) : getKey p kv.1 = kv.2 := by
  induction p with
  | nil => simp at h
  | cons hd rest ih =>
    have hnd' := List.nodup_cons.mp (by simpa using hnd)
    rcases List.mem_cons.mp h with h1 | h1
    · subst h1
      simp [getKey]
    · have hne : ¬ hd.1 = kv.1 := by
        intro e
        have hm : kv.1 ∈ keysOf rest := List.mem_map_of_mem Prod.fst h1
        exact hnd'.1 (e ▸ hm)
      have hgk : getKey (hd :: rest) kv.1 = getKey rest kv.1 := by
        simp [getKey, hne]
      rw [hgk]
      exact ih hnd'.2 h1

theorem mem_valuesOf_iff {p : Placements} {v : Option String}
    (hnd : (keysOf p).Nodup) :
    v ∈ valuesOf p ↔ ∃ k, k ∈ keysOf p ∧ getKey p k = v := by
  constructor
  · intro h
    rcases List.mem_map.mp h with ⟨kv, hmem, hv⟩
    exact ⟨kv.1, List.mem_map_of_mem Prod.fst hmem, by
      rw [getKey_eq_of_mem hnd hmem, hv]⟩
  · rintro ⟨k, hk, hv⟩
    have := getKey_of_mem_keysOf hk
    rw [hv] at this
    exact List.mem_map_of_mem Prod.snd this

theorem keysOf_setKeyGo (p : Placements) (k : String) (v : Option String) :
    keysOf (setKeyGo p k v) = keysOf p := by
  induction p with
  | nil => rfl
  | cons kv rest ih =>
    obtain ⟨a, w⟩ := kv
    by_cases h : a = k <;> simp [setKeyGo, h, ih]

theorem getKey_setKeyGo_self {p : Placements} {k : String} (v : Option String)
    (h : k ∈ keysOf p) : getKey (setKeyGo p k v) k = v := by
  induction p with
  | nil => simp at h
  | cons kv rest ih =>
    obtain ⟨a, w⟩ := kv
    by_cases hk : a = k
    · subst hk
      simp [setKeyGo, getKey]
    · have hr : k ∈ keysOf rest := by
        rcases List.mem_cons.mp h with h1 | h1
        · exact absurd h1.symm hk
        · exact h1
      simp [setKeyGo, hk, getKey, ih hr]

theorem getKey_setKeyGo_ne {k' k : String} (p : Placements) (v : Option String)
    (h : k' ≠ k) : getKey (setKeyGo p k v) k' = getKey p k' := by
  induction p with
  | nil => rfl
  | cons kv rest ih =>
    obtain ⟨a, w⟩ := kv
    by_cases hk : a = k
    · subst hk
      have h1 : ¬ a = k' := fun e => h e.symm
      simp [setKeyGo, getKey, h1, ih]
    · by_cases hk' : a = k' <;> simp [setKeyGo, getKey, hk, hk', h, ih]

theorem getKey_append (p q : Placements) (k : String) :
    getKey (p ++ q) k = if k ∈ keysOf p then getKey p k else getKey q k := by
  induction p with
  | nil => simp [getKey]
  | cons kv rest ih =>
    obtain ⟨a, v⟩ := kv
    by_cases hk : a = k
    · subst hk
      simp [getKey]
    · have h1 : ¬ k = a := fun e => hk e.symm
      simp [getKey, hk, h1, ih]

@[simp] theorem getKey_setKey_self (p : Placements) (k : String)
    (v : Option String) : getKey (setKey p k v) k = v := by
  unfold setKey
  by_cases h : hasKey p k
  · rw [if_pos h]
    exact getKey_setKeyGo_self v (hasKey_iff.mp h)
  · rw [if_neg h, getKey_append]
    have hm : k ∉ keysOf p := fun hm => h (hasKey_iff.mpr hm)
    simp [hm, getKey]

theorem getKey_setKey_ne {k' k : String} (p : Placements) (v : Option String)
    (h : k' ≠ k) : getKey (setKey p k v) k' = getKey p k' := by
  unfold setKey
  by_cases hh : hasKey p k
  · rw [if_pos hh]
    exact getKey_setKeyGo_ne p v h
  · rw [if_neg hh, getKey_append]
    by_cases hm : k' ∈ keysOf p
    · simp [hm]
    · have h1 : ¬ k = k' := fun e => h e.symm
      simp [hm, getKey, h1, getKey_eq_none_of_not_mem hm]

theorem keysOf_setKey_of_mem {p : Placements} {k : String} (v : Option String)
    (h : k ∈ keysOf p) : keysOf (setKey p k v) = keysOf p := by
  unfold setKey
  rw [if_pos (hasKey_iff.mpr h)]
  exact keysOf_setKeyGo p k v

theorem keysOf_setKey_of_not_mem {p : Placements} {k : String}
    (v : Option String) (h : k ∉ keysOf p) :
    keysOf (setKey p k v) = keysOf p ++ [k] := by
  unfold setKey
  rw [if_neg (fun hh => h (hasKey_iff.mp hh))]
  simp [keysOf]

@[simp] theorem keysOf_vacate (p : Placements) (d : String) :
    keysOf (vacate p d) = keysOf p := by
  induction p with
  | nil => rfl
  | cons kv rest ih =>
    obtain ⟨a, v⟩ := kv
    have hv : vacate ((a, v) :: rest) d =
        (if v = some d then (a, none) else (a, v)) :: vacate rest d := by
      simp [vacate]
    rw [hv]
    by_cases h : v = some d <;> simp [h, ih]

theorem getKey_vacate (p : Placements) (d k : String) :
    getKey (vacate p d) k = vacSpec p d k := by
  induction p with
  | nil => simp [vacate, getKey, vacSpec]
  | cons kv rest ih =>
    obtain ⟨a, v⟩ := kv
    have hvc : vacate ((a, v) :: rest) d =
        (if v = some d then (a, none) else (a, v)) :: vacate rest d := by
      simp [vacate]
    rw [hvc]
    unfold vacSpec at ih ⊢
    by_cases ha : a = k
    · subst ha
      by_cases hd : v = some d <;> simp [getKey, hd]
    · by_cases hd : v = some d <;> simp [getKey, ha, hd, ih]

theorem filterMap_snd_eq {p : Placements} (hnd : (keysOf p).Nodup) :
    p.filterMap Prod.snd = (keysOf p).filterMap (fun k => getKey p k) := by
  induction p with
  | nil => rfl
  | cons kv rest ih =>
    obtain ⟨a, v⟩ := kv
    have hnd' := List.nodup_cons.mp (by simpa using hnd)
    have hcongr : (keysOf rest).filterMap (fun k => getKey ((a, v) :: rest) k) =
        (keysOf rest).filterMap (fun k => getKey rest k) := by
      apply List.filterMap_congr
      intro k hk
      have hne : ¬ a = k := fun e => hnd'.1 (e ▸ hk)
      simp [getKey, hne]
    have hga : getKey ((a, v) :: rest) a = v := by simp [getKey]
    cases v with
    | none => simp [List.filterMap_cons, hga, hcongr, ih hnd'.2]
    | some b => simp [List.filterMap_cons, hga, hcongr, ih hnd'.2]

theorem injOnKeys_of_nodupValues {p : Placements}
    (hnd : (keysOf p).Nodup) (hv : (p.filterMap Prod.snd).Nodup) :
    InjOnKeys p := by
  induction p with
  | nil =>
    intro k1 k2 b h1 _
    simp [getKey] at h1
  | cons kv rest ih =>
    obtain ⟨a, w⟩ := kv
    have hnd' := List.nodup_cons.mp (by simpa using hnd)
    have hvrest : (rest.filterMap Prod.snd).Nodup := by
      cases w with
      | none => simpa [List.filterMap_cons] using hv
      | some b =>
        exact (List.nodup_cons.mp (by simpa [List.filterMap_cons] using hv)).2
    have hnotmem : ∀ b, w = some b → b ∉ rest.filterMap Prod.snd := by
      intro b hw
      subst hw
      exact (List.nodup_cons.mp (by simpa [List.filterMap_cons] using hv)).1
    intro k1 k2 b h1 h2
    by_cases c1 : a = k1 <;> by_cases c2 : a = k2
    · rw [← c1, ← c2]
    · exfalso
      simp only [getKey] at h1 h2
      rw [if_pos c1] at h1
      rw [if_neg c2] at h2
      exact hnotmem b h1 (List.mem_filterMap.mpr ⟨(k2, some b), getKey_mem h2, rfl⟩)
    · exfalso
      simp only [getKey] at h1 h2
      rw [if_neg c1] at h1
      rw [if_pos c2] at h2
      exact hnotmem b h2 (List.mem_filterMap.mpr ⟨(k1, some b), getKey_mem h1, rfl⟩)
    · simp only [getKey] at h1 h2
      rw [if_neg c1] at h1
      rw [if_neg c2] at h2
      exact ih hnd'.2 hvrest k1 k2 b h1 h2

theorem nodupValues_of_injOnKeys {p : Placements}
    (hnd : (keysOf p).Nodup) (hinj : InjOnKeys p) :
    (p.filterMap Prod.snd).Nodup := by
  rw [filterMap_snd_eq hnd]
  exact List.Nodup.filterMap
    (fun k1 k2 b hb1 hb2 => hinj k1 k2 b (by simpa using hb1) (by simpa using hb2))
    hnd

theorem oldTargetKey_spec {p : Placements} {d k0 : String}
    (h : oldTargetKey p d = some k0) :
    getKey p k0 = some d ∧ k0 ∈ keysOf p := by
  refine ⟨?_, List.mem_of_find?_eq_some h⟩
  have := List.find?_some h
  simpa using this

theorem oldTargetKey_isSome {p : Placements} {d K : String}
    (h : getKey p K = some d) : ∃ k0, oldTargetKey p d = some k0 := by
  cases ho : oldTargetKey p d with
  | some k0 => exact ⟨k0, rfl⟩
  | none =>
    exfalso
    have hK : K ∈ keysOf p := mem_keysOf_of_getKey (by simp [h])
    have := List.find?_eq_none.mp ho K hK
    simp [h] at this

theorem oldTargetKey_eq {p : Placements} {d K : String} (hinj : InjOnKeys p)
    (h : getKey p K = some d) : oldTargetKey p d = some K := by
  obtain ⟨k0, hk0⟩ := oldTargetKey_isSome h
  have hs := oldTargetKey_spec hk0
  rw [hk0]
  exact congrArg some (hinj k0 K d hs.1 h)

theorem handleDrop_noneDragged (p : Placements) (T : String) :
    handleDrop none p T = p := rfl

theorem handleDrop_emptyDragged (p : Placements) (T : String) :
    handleDrop (some "") p T = p := by
  simp [handleDrop]

theorem getKey_handleDrop {d : String} (p : Placements) (T : String)
    (hd : d ≠ "") (k : String) :
    getKey (handleDrop (some d) p T) k = dropSpec p d T k := by
  have hnp1 : ∀ k', getKey (setKey (vacate p d) T (some d)) k' =
      if k' = T then some d else vacSpec p d k' := by
    intro k'
    by_cases h : k' = T
    · subst h
      simp [getKey_setKey_self]
    · rw [if_neg h, getKey_setKey_ne _ _ h, getKey_vacate]
  simp only [handleDrop, dropSpec]
  rw [if_neg hd, ← getKey_vacate p d T]
  cases hex : getKey (vacate p d) T with
  | none => exact hnp1 k
  | some e =>
    by_cases he : e = ""
    · simp only [if_pos he]
      exact hnp1 k
    · simp only [if_neg he]
      cases ho : oldTargetKey p d with
      | none => exact hnp1 k
      | some k0 =>
        by_cases h0 : k0 = ""
        · simp only [if_pos h0]
          exact hnp1 k
        · simp only [if_neg h0]
          have hvT : vacSpec p d T = some e := by
            rw [← getKey_vacate]
            exact hex
          have hpT : getKey p T ≠ some d := by
            intro hc
            simp [vacSpec, hc] at hvT
          have hk0d : getKey p k0 = some d := (oldTargetKey_spec ho).1
          have hk0T : k0 ≠ T := fun e' => hpT (e' ▸ hk0d)
          by_cases hk : k = k0
          · subst hk
            rw [getKey_setKey_self, if_neg hk0T, if_pos rfl]
          · rw [getKey_setKey_ne _ _ hk, hnp1 k]
            by_cases hkT : k = T
            · simp [hkT]
            · simp [hkT, hk]

theorem keysOf_handleDrop_of_mem {d : String} (p : Placements) {T : String}
    (hd : d ≠ "") (hT : T ∈ keysOf p) :
    keysOf (handleDrop (some d) p T) = keysOf p := by
  have h1 : keysOf (setKey (vacate p d) T (some d)) = keysOf p := by
    rw [keysOf_setKey_of_mem _ ((keysOf_vacate p d).symm ▸ hT), keysOf_vacate]
  simp only [handleDrop]
  rw [if_neg hd]
  cases hex : getKey (vacate p d) T with
  | none => exact h1
  | some e =>
    by_cases he : e = ""
    · simp only [if_pos he]
      exact h1
    · simp only [if_neg he]
      cases ho : oldTargetKey p d with
      | none => exact h1
      | some k0 =>
        by_cases h0 : k0 = ""
        · simp only [if_pos h0]
          exact h1
        · simp only [if_neg h0]
          rw [keysOf_setKey_of_mem _ (h1.symm ▸ (oldTargetKey_spec ho).2)]
          exact h1

theorem keysOf_handleDrop_of_not_mem {d : String} (p : Placements) {T : String}
    (hd : d ≠ "") (hT : T ∉ keysOf p) :
    keysOf (handleDrop (some d) p T) = keysOf p ++ [T] := by
  have hvT : getKey (vacate p d) T = none :=
    getKey_eq_none_of_not_mem (by rw [keysOf_vacate]; exact hT)
  simp only [handleDrop]
  rw [if_neg hd, hvT]
  show keysOf (setKey (vacate p d) T (some d)) = keysOf p ++ [T]
  rw [keysOf_setKey_of_not_mem _ (by rw [keysOf_vacate]; exact hT), keysOf_vacate]

theorem mem_keysOf_setKey {p : Placements} {k k0 : String} (v : Option String) :
    k ∈ keysOf (setKey p k0 v) ↔ k ∈ keysOf p ∨ k = k0 := by
  by_cases hm : k0 ∈ keysOf p
  · rw [keysOf_setKey_of_mem v hm]
    constructor
    · exact Or.inl
    · rintro (h | h)
      · exact h
      · exact h ▸ hm
  · rw [keysOf_setKey_of_not_mem v hm]
    simp

theorem mem_setKey {p : Placements} {kv : String × Option String}
    {k : String} {v : Option String} (h : kv ∈ setKey p k v) :
    kv ∈ p ∨ kv = (k, v) := by
  unfold setKey at h
  by_cases hh : hasKey p k
  · rw [if_pos hh] at h
    clear hh
    induction p with
    | nil => simp [setKeyGo] at h
    | cons hd rest ih =>
      obtain ⟨a, w⟩ := hd
      by_cases ha : a = k
      · subst ha
        simp only [setKeyGo, if_pos rfl] at h
        rcases List.mem_cons.mp h with h1 | h1
        · exact Or.inr (by simpa using h1)
        · rcases ih h1 with h2 | h2
          · exact Or.inl (List.mem_cons_of_mem _ h2)
          · exact Or.inr h2
      · simp only [setKeyGo, if_neg ha] at h
        rcases List.mem_cons.mp h with h1 | h1
        · exact Or.inl (h1 ▸ List.mem_cons_self _ _)
        · rcases ih h1 with h2 | h2
          · exact Or.inl (List.mem_cons_of_mem _ h2)
          · exact Or.inr h2
  · rw [if_neg hh] at h
    rcases List.mem_append.mp h with h1 | h1
    · exact Or.inl h1
    · exact Or.inr (by simpa using h1)

theorem keysNodup_setKey {p : Placements} {k : String} (v : Option String)
    (hnd : (keysOf p).Nodup) : (keysOf (setKey p k v)).Nodup := by
  by_cases hm : k ∈ keysOf p
  · rw [keysOf_setKey_of_mem v hm]
    exact hnd
  · rw [keysOf_setKey_of_not_mem v hm]
    simp [List.nodup_append, hnd, List.disjoint_singleton, hm]

theorem keysOf_initialPlacements_mem (ts : List DragDropQuizTarget)
    (k : String) :
    k ∈ keysOf (initialPlacements ts) ↔
      k ∈ ts.map DragDropQuizTarget.id := by
  have main : ∀ (ts : List DragDropQuizTarget) (acc : Placements),
      k ∈ keysOf (ts.foldl (fun acc t => setKey acc t.id none) acc) ↔
        k ∈ keysOf acc ∨ k ∈ ts.map DragDropQuizTarget.id := by
    intro ts
    induction ts with
    | nil => intro acc; simp
    | cons t ts ih =>
      intro acc
      rw [List.foldl_cons, ih, mem_keysOf_setKey]
      simp [or_assoc, eq_comm]
  have h := main ts []
  simpa [initialPlacements] using h

theorem initialPlacements_values {ts : List DragDropQuizTarget}
    {kv : String × Option String} (h : kv ∈ initialPlacements ts) :
    kv.2 = none := by
  have main : ∀ (ts : List DragDropQuizTarget) (acc : Placements),
      (∀ kv ∈ acc, kv.2 = none) →
      ∀ kv ∈ ts.foldl (fun acc t => setKey acc t.id none) acc, kv.2 = none := by
    intro ts
    induction ts with
    | nil => intro acc hacc; exact hacc
    | cons t ts ih =>
      intro acc hacc
      rw [List.foldl_cons]
      refine ih _ ?_
      intro kv hkv
      rcases mem_setKey hkv with h1 | h1
      · exact hacc kv h1
      · rw [h1]
  exact main ts [] (by simp) kv h

theorem keysNodup_initialPlacements (ts : List DragDropQuizTarget) :
    (keysOf (initialPlacements ts)).Nodup := by
  have main : ∀ (ts : List DragDropQuizTarget) (acc : Placements),
      (keysOf acc).Nodup →
      (keysOf (ts.foldl (fun acc t => setKey acc t.id none) acc)).Nodup := by
    intro ts
    induction ts with
    | nil => intro acc hacc; exact hacc
    | cons t ts ih =>
      intro acc hacc
      rw [List.foldl_cons]
      exact ih _ (keysNodup_setKey none hacc)
  exact main ts [] (by simp)

theorem keysOf_initialPlacements_of_nodup {ts : List DragDropQuizTarget}
    (hnd : (ts.map DragDropQuizTarget.id).Nodup) :
    keysOf (initialPlacements ts) = ts.map DragDropQuizTarget.id := by
  have main : ∀ (ts : List DragDropQuizTarget) (acc : Placements),
      (keysOf acc ++ ts.map DragDropQuizTarget.id).Nodup →
      keysOf (ts.foldl (fun acc t => setKey acc t.id none) acc) =
        keysOf acc ++ ts.map DragDropQuizTarget.id := by
    intro ts
    induction ts with
    | nil => intro acc _; simp
    | cons t ts ih =>
      intro acc hacc
      have hnotin : t.id ∉ keysOf acc := by
        intro hmem
        have := (List.nodup_append.mp hacc).2.2
        exact this hmem (by simp)
      rw [List.foldl_cons, ih]
      · rw [keysOf_setKey_of_not_mem none hnotin]
        simp
      · rw [keysOf_setKey_of_not_mem none hnotin]
        simpa [List.append_assoc] using hacc
  have h := main ts [] (by simpa using hnd)
  simpa [initialPlacements] using h

theorem injOnKeys_initialPlacements (ts : List DragDropQuizTarget) :
    InjOnKeys (initialPlacements ts) := by
  intro k1 k2 b h1 _
  have := initialPlacements_values (getKey_mem h1)
  simp at this

theorem vacSpec_eq_some {p : Placements} {d k b : String}
    (h : vacSpec p d k = some b) : getKey p k = some b ∧ b ≠ d := by
  unfold vacSpec at h
  by_cases hc : getKey p k = some d
  · simp [hc] at h
  · rw [if_neg hc] at h
    exact ⟨h, fun e => hc (e ▸ h)⟩

theorem dropSpec_eq_some {p : Placements} {d T k b : String}
    (h : dropSpec p d T k = some b) :
    (k = T ∧ b = d) ∨
    (k ≠ T ∧ b ≠ d ∧ getKey p k = some b) ∨
    (k ≠ T ∧ b ≠ d ∧ getKey p k = some d ∧ getKey p T = some b) := by
  unfold dropSpec at h
  split at h
  next hk => exact Or.inl ⟨hk, (Option.some.inj h).symm⟩
  next hk =>
    have vacCase : vacSpec p d k = some b →
        (k ≠ T ∧ b ≠ d ∧ getKey p k = some b) := by
      intro hv
      obtain ⟨hg, hbd⟩ := vacSpec_eq_some hv
      exact ⟨hk, hbd, hg⟩
    split at h
    next hvT => exact Or.inr (Or.inl (vacCase h))
    next e hvT =>
      split at h
      next he => exact Or.inr (Or.inl (vacCase h))
      next he =>
        split at h
        next ho => exact Or.inr (Or.inl (vacCase h))
        next k0 ho =>
          split at h
          next h0 => exact Or.inr (Or.inl (vacCase h))
          next h0 =>
            split at h
            next hkk =>
              have hbe : b = e := (Option.some.inj h).symm
              obtain ⟨hgT, hed⟩ := vacSpec_eq_some hvT
              refine Or.inr (Or.inr ⟨hk, hbe ▸ hed, ?_, hbe ▸ hgT⟩)
              rw [hkk]
              exact (oldTargetKey_spec ho).1
            next hkk => exact Or.inr (Or.inl (vacCase h))

theorem injOnKeys_handleDrop {p : Placements} (dOpt : Option String)
    (T : String) (hinj : InjOnKeys p) : InjOnKeys (handleDrop dOpt p T) := by
  cases dOpt with
  | none => exact hinj
  | some d =>
    by_cases hd : d = ""
    · rw [hd, handleDrop_emptyDragged]
      exact hinj
    · intro k1 k2 b h1 h2
      rw [getKey_handleDrop p T hd] at h1 h2
      rcases dropSpec_eq_some h1 with ⟨e1, _⟩ | ⟨n1, bd1, g1⟩ | ⟨n1, bd1, gd1, gT1⟩ <;>
        rcases dropSpec_eq_some h2 with ⟨e2, _⟩ | ⟨n2, bd2, g2⟩ | ⟨n2, bd2, gd2, gT2⟩
      · rw [e1, e2]
      · exact absurd ‹b = d› bd2
      · exact absurd ‹b = d› bd2
      · exact absurd ‹b = d› bd1
      · exact hinj k1 k2 b g1 g2
      · exact absurd (hinj k1 T b g1 gT2) n1
      · exact absurd ‹b = d› bd1
      · exact absurd (hinj k2 T b g2 gT1) n2
      · exact hinj k1 k2 d gd1 gd2

theorem keysNodup_handleDrop {p : Placements} (dOpt : Option String)
    (T : String) (hnd : (keysOf p).Nodup) :
    (keysOf (handleDrop dOpt p T)).Nodup := by
  cases dOpt with
  | none => exact hnd
  | some d =>
    by_cases hd : d = ""
    · rw [hd, handleDrop_emptyDragged]
      exact hnd
    · by_cases hT : T ∈ keysOf p
      · rw [keysOf_handleDrop_of_mem p hd hT]
        exact hnd
      · rw [keysOf_handleDrop_of_not_mem p hd hT]
        simp [List.nodup_append, hnd, hT]

theorem insertShuffled_perm (x : DragDropQuizItem) :
    ∀ (l : List DragDropQuizItem) (o : List Bool),
      (insertShuffled x l o).1.Perm (x :: l) := by
  intro l
  induction l with
  | nil => intro o; cases o <;> simp [insertShuffled]
  | cons y ys ih =>
    intro o
    cases o with
    | nil =>
      have h1 : (insertShuffled x (y :: ys) []).1
          = y :: (insertShuffled x ys []).1 := rfl
      rw [h1]
      exact ((ih []).cons y).trans (List.Perm.swap x y ys)
    | cons b o' =>
      cases b with
      | true =>
        have h1 : (insertShuffled x (y :: ys) (true :: o')).1
            = y :: (insertShuffled x ys o').1 := by simp [insertShuffled]
        rw [h1]
        exact ((ih o').cons y).trans (List.Perm.swap x y ys)
      | false => simp [insertShuffled]

theorem jsSortAux_perm :
    ∀ (xs acc : List DragDropQuizItem) (o : List Bool),
      (jsSortAux acc xs o).Perm (acc ++ xs) := by
  intro xs
  induction xs with
  | nil => intro acc o; simp [jsSortAux]
  | cons x xs ih =>
    intro acc o
    have e1 : jsSortAux acc (x :: xs) o
        = jsSortAux (insertShuffled x acc o).1 xs (insertShuffled x acc o).2 :=
      rfl
    rw [e1]
    refine (ih (insertShuffled x acc o).1 (insertShuffled x acc o).2).trans ?_
    refine ((insertShuffled_perm x acc o).append_right xs).trans ?_
    simp only [List.cons_append]
    exact List.perm_middle.symm

theorem jsSort_perm (items : List DragDropQuizItem) (o : List Bool) :
    (jsSort items o).Perm items := by
  have h := jsSortAux_perm items [] o
  simpa [jsSort] using h

theorem insertShuffled_nilOracle (x : DragDropQuizItem) :
    ∀ l : List DragDropQuizItem, insertShuffled x l [] = (l ++ [x], []) := by
  intro l
  induction l with
  | nil => rfl
  | cons y ys ih => simp [insertShuffled, ih]

theorem jsSortAux_nilOracle :
    ∀ (xs acc : List DragDropQuizItem), jsSortAux acc xs [] = acc ++ xs := by
  intro xs
  induction xs with
  | nil => intro acc; simp [jsSortAux]
  | cons x xs ih =>
    intro acc
    have e1 : jsSortAux acc (x :: xs) []
        = jsSortAux (insertShuffled x acc []).1 xs (insertShuffled x acc []).2 :=
      rfl
    rw [e1, insertShuffled_nilOracle, ih (acc ++ [x])]
    simp

theorem jsSort_nilOracle (items : List DragDropQuizItem) :
    jsSort items [] = items := by
  have h := jsSortAux_nilOracle items []
  simpa [jsSort] using h

theorem reachDrop_inv {targets : List DragDropQuizTarget} {p : Placements}
    (h : ReachDrop targets p) : (keysOf p).Nodup ∧ InjOnKeys p := by
  induction h with
  | init =>
    exact ⟨keysNodup_initialPlacements targets,
      injOnKeys_initialPlacements targets⟩
  | step dOpt T _ ih =>
    exact ⟨keysNodup_handleDrop dOpt T ih.1, injOnKeys_handleDrop dOpt T ih.2⟩

theorem values_handleDrop {p : Placements} {dOpt : Option String} {T : String}
    (hnd : (keysOf p).Nodup) {i : String}
    (h : some i ∈ valuesOf (handleDrop dOpt p T)) :
    dOpt = some i ∨ some i ∈ valuesOf p := by
  cases dOpt with
  | none => exact Or.inr h
  | some d =>
    by_cases hd : d = ""
    · rw [hd, handleDrop_emptyDragged] at h
      exact Or.inr h
    · have hq : (keysOf (handleDrop (some d) p T)).Nodup :=
        keysNodup_handleDrop (some d) T hnd
      obtain ⟨k, _, hk⟩ := (mem_valuesOf_iff hq).mp h
      rw [getKey_handleDrop p T hd] at hk
      rcases dropSpec_eq_some hk with ⟨_, hb⟩ | ⟨_, _, hg⟩ | ⟨_, _, _, hg⟩
      · exact Or.inl (congrArg some hb.symm)
      · exact Or.inr (List.mem_map_of_mem Prod.snd (getKey_mem hg))
      · exact Or.inr (List.mem_map_of_mem Prod.snd (getKey_mem hg))

theorem reachUI_inv {node : DragDropQuizNode} {p : Placements}
    {dOpt : Option String} (h : ReachUI node p dOpt) :
    (keysOf p).Nodup ∧ InjOnKeys p ∧
    (dOpt = none ∨ ∃ i ∈ itemIds node, dOpt = some i) ∧
    (∀ i, some i ∈ valuesOf p → i ∈ itemIds node) := by
  induction h with
  | init =>
    refine ⟨keysNodup_initialPlacements _, injOnKeys_initialPlacements _,
      Or.inl rfl, ?_⟩
    intro i hi
    rcases List.mem_map.mp hi with ⟨kv, hkv, he⟩
    rw [initialPlacements_values hkv] at he
    cases he
  | dragStart i _ hi ih =>
    exact ⟨ih.1, ih.2.1, Or.inr ⟨i, hi, rfl⟩, ih.2.2.2⟩
  | dragEnd _ ih => exact ⟨ih.1, ih.2.1, Or.inl rfl, ih.2.2.2⟩
  | drop T _ _ ih =>
    refine ⟨keysNodup_handleDrop _ T ih.1, injOnKeys_handleDrop _ T ih.2.1,
      Or.inl rfl, ?_⟩
    intro i hi
    rcases values_handleDrop ih.1 hi with h1 | h1
    · rcases ih.2.2.1 with h2 | ⟨j, hj, h2⟩
      · rw [h2] at h1; cases h1
      · rw [h2] at h1
        exact (Option.some.inj h1) ▸ hj
    · exact ih.2.2.2 i h1

theorem reachGood_inv {node : DragDropQuizNode} {p : Placements}
    (hti : (targetIds node).Nodup) (h : ReachGood node p) :
    keysOf p = targetIds node ∧ InjOnKeys p ∧
    (∀ i, some i ∈ valuesOf p → i ∈ itemIds node) := by
  induction h with
  | init =>
    refine ⟨keysOf_initialPlacements_of_nodup hti,
      injOnKeys_initialPlacements _, ?_⟩
    intro i hi
    rcases List.mem_map.mp hi with ⟨kv, hkv, he⟩
    rw [initialPlacements_values hkv] at he
    cases he
  | dropNone T _ ih => exact ih
  | drop d T _ hd hT ih =>
    by_cases hde : d = ""
    · rw [hde, handleDrop_emptyDragged]
      exact ih
    · have hnd := hti
      rw [← ih.1] at hnd
      have hTk := hT
      rw [← ih.1] at hTk
      refine ⟨?_, injOnKeys_handleDrop _ T ih.2.1, ?_⟩
      · rw [keysOf_handleDrop_of_mem _ hde hTk]
        exact ih.1
      · intro i hi
        rcases values_handleDrop hnd hi with h1 | h1
        · exact (Option.some.inj h1) ▸ hd
        · exact ih.2.2 i h1

theorem allPlaced_iff {items : List DragDropQuizItem} {p : Placements} :
    allPlaced items p = true ↔ ∀ it ∈ items, some it.id ∈ valuesOf p := by
  unfold allPlaced unplacedItems
  rw [Nat.beq_eq_true_eq, List.length_eq_zero, List.filter_eq_nil_iff]
  simp

theorem isComplete_iff {targets : List DragDropQuizTarget} {p : Placements} :
    isComplete targets p = true ↔ ∀ t ∈ targets, getKey p t.id ≠ none := by
  unfold isComplete
  simp

theorem filterMap_full {α β : Type} {f : α → Option β} {l : List α}
    (h : (l.filterMap f).length = l.length) : ∀ a ∈ l, f a ≠ none := by
  have h' : ∀ a ∈ l, (f a).isSome = true := by simpa using h
  intro a ha hn
  have hs := h' a ha
  rw [hn] at hs
  simp at hs

theorem filterMap_length_of_full {α β : Type} {f : α → Option β} {l : List α}
    (h : ∀ a ∈ l, f a ≠ none) : (l.filterMap f).length = l.length := by
  induction l with
  | nil => rfl
  | cons a l ih =>
    rw [List.filterMap_cons]
    cases hf : f a with
    | none => exact absurd hf (h a (List.mem_cons_self a l))
    | some b =>
      have he := ih (fun x hx => h x (List.mem_cons_of_mem a hx))
      simp [he]

/-- Claim C1 (counterexample): the claimed equivalence between the allPlaced
flag (unplacedItems empty) and per-target completeness fails on a state
reachable by handleDrop operations.  Dropping a on E, b on S, c on G and
then dropping c onto the unplaced pool leaves target G unassigned while
every item id still occurs as a value (c is held by the spurious key the
pool drop added), so unplacedItems is empty and allPlaced is true while the
per-target completeness predicate is false. -/
theorem claim1_counterexample :
    ReachDrop node3.targets pStar ∧
    allPlaced node3.items pStar = true ∧
    isComplete node3.targets pStar = false := by
  refine ⟨?_, by decide, by decide⟩
  have h1 := ReachDrop.step (some "a") "E"
    (@ReachDrop.init node3.targets)
  rw [show handleDrop (some "a") (initialPlacements node3.targets) "E" =
      [("E", some "a"), ("S", none), ("G", none)] from by decide] at h1
  have h2 := ReachDrop.step (some "b") "S" h1
  rw [show handleDrop (some "b") [("E", some "a"), ("S", none), ("G", none)]
      "S" = [("E", some "a"), ("S", some "b"), ("G", none)] from by decide]
    at h2
  have h3 := ReachDrop.step (some "c") "G" h2
  rw [show handleDrop (some "c")
      [("E", some "a"), ("S", some "b"), ("G", none)] "G" =
      [("E", some "a"), ("S", some "b"), ("G", some "c")] from by decide] at h3
  have h4 := ReachDrop.step (some "c") "unplaced" h3
  rw [show handleDrop (some "c")
      [("E", some "a"), ("S", some "b"), ("G", some "c")] "unplaced" =
      pStar from by decide] at h4
  exact h4

/-- Claim C3 (code bug): dropping onto the unplaced pool does not vacate the
dragged item.  From the reachable state with a placed on E, dragging a onto
the pool's drop zone runs handleDrop with the pseudo-target id unplaced; the
JS property write adds a brand-new key unplaced that holds a, so a still
occurs as a value of the map and the key set is no longer the node's
target-id set fixed at quiz start. -/
theorem claim3_unplaced_drop_adds_key :
    ReachDrop node3.targets [("E", some "a"), ("S", none), ("G", none)] ∧
    handleDrop (some "a") [("E", some "a"), ("S", none), ("G", none)]
      "unplaced" =
      [("E", none), ("S", none), ("G", none), ("unplaced", some "a")] ∧
    keysOf (handleDrop (some "a") [("E", some "a"), ("S", none), ("G", none)]
      "unplaced") ≠ keysOf (initialPlacements node3.targets) ∧
    some "a" ∈ valuesOf (handleDrop (some "a")
      [("E", some "a"), ("S", none), ("G", none)] "unplaced") := by
  refine ⟨?_, by decide, by decide, by decide⟩
  have h1 := ReachDrop.step (some "a") "E"
    (@ReachDrop.init node3.targets)
  rw [show handleDrop (some "a") (initialPlacements node3.targets) "E" =
      [("E", some "a"), ("S", none), ("G", none)] from by decide] at h1
  exact h1

/-- Claim C5: for every quiz node and every placements state reachable from
the initial all-unassigned state by any sequence of handleDrop operations,
every item id appears as a value at most once: the list of assigned item ids
has no duplicates, so no item occupies two targets simultaneously. -/
theorem claim5_no_duplicate_assignment {targets : List DragDropQuizTarget}
    {p : Placements} (h : ReachDrop targets p) :
    (p.filterMap Prod.snd).Nodup := by
  obtain ⟨hnd, hinj⟩ := reachDrop_inv h
  exact nodupValues_of_injOnKeys hnd hinj

/-- Witness for C5: the invariant holds at the concrete state reached by one
drop of item a onto target E of the example node. -/
theorem claim5_witness :
    ((handleDrop (some "a") (initialPlacements node3.targets) "E").filterMap
      Prod.snd).Nodup :=
  claim5_no_duplicate_assignment
    (ReachDrop.step (some "a") "E" ReachDrop.init)

/-- Claim C6: the correctness check is true iff every target's assigned item
equals its declared correct item id; from a fully correct assignment,
changing any single target's entry to an incorrect item flips the result to
false; and on the spec's example, placing a on E, b on S, c on G checks true
while a on S, b on E, c on G checks false. -/
theorem claim6_checkCorrectness_spec :
    (∀ (targets : List DragDropQuizTarget) (p : Placements),
      checkCorrectness targets p = true ↔
        ∀ t ∈ targets, getKey p t.id = some t.correctItemId) ∧
    (∀ (targets : List DragDropQuizTarget) (p : Placements)
      (t : DragDropQuizTarget) (v : String), t ∈ targets →
      checkCorrectness targets p = true → v ≠ t.correctItemId →
      checkCorrectness targets (setKey p t.id (some v)) = false) ∧
    checkCorrectness node3.targets pGood = true ∧
    checkCorrectness node3.targets pBad = false := by
  refine ⟨?_, ?_, by decide, by decide⟩
  · intro targets p
    unfold checkCorrectness
    rw [List.all_eq_true]
    simp
  · intro targets p t v ht _ hv
    rw [Bool.eq_false_iff]
    intro hall
    have h := List.all_eq_true.mp hall t ht
    simp [getKey_setKey_self] at h
    exact hv h

/-- Witness for C6: flipping target E of the fully correct example
assignment to the wrong item b makes the check false. -/
theorem claim6_witness :
    checkCorrectness node3.targets (setKey pGood "E" (some "b")) = false :=
  claim6_checkCorrectness_spec.2.1 node3.targets pGood
    ⟨"E", "Environmental", "a"⟩ "b" (by decide) (by decide) (by decide)

/-- Claim C7: initialization of a quiz node yields a placements map whose
key set is exactly the node's target-id set with every value unassigned, and
a shuffled item sequence that is a permutation of the node's items, for
every behaviour of the randomness oracle. -/
theorem claim7_initialize_spec (targets : List DragDropQuizTarget)
    (items : List DragDropQuizItem) (o : List Bool) :
    (∀ k, hasKey (initialPlacements targets) k = true ↔
        k ∈ targets.map DragDropQuizTarget.id) ∧
    (initialPlacements targets).all (fun kv => kv.2 == none) = true ∧
    (jsSort items o).Perm items := by
  refine ⟨?_, ?_, jsSort_perm items o⟩
  · intro k
    exact hasKey_iff.trans (keysOf_initialPlacements_mem targets k)
  · rw [List.all_eq_true]
    intro kv hkv
    simp [initialPlacements_values hkv]

/-- Claim C8 (counterexample): the shuffled order is not guaranteed to
differ from the declared order on every initialization.  With two items, the
oracle behaviour in which every comparison sends the inserted element to the
end — one possible run of the random comparator — returns the items exactly
in their declared order. -/
theorem claim8_counterexample :
    2 ≤ ([⟨"a", "ka"⟩, ⟨"b", "kb"⟩] : List DragDropQuizItem).length ∧
    jsSort [⟨"a", "ka"⟩, ⟨"b", "kb"⟩] [] = [⟨"a", "ka"⟩, ⟨"b", "kb"⟩] :=
  ⟨by decide, by decide⟩

/-- Claim C8 (amended): for every behaviour of the randomness source the
shuffle is a valid permutation of exactly the node's items (no duplication,
no omission), but the resulting order can coincide with the declared item
order: one possible oracle yields the identity arrangement. -/
theorem claim8_shuffle_perm (items : List DragDropQuizItem) :
    (∀ o : List Bool, (jsSort items o).Perm items) ∧
    jsSort items [] = items :=
  ⟨fun o => jsSort_perm items o, jsSort_nilOracle items⟩

/-- Claim C9 (counterexample): a drop whose dragged id is not among the
node's item ids is not a no-op: handleDrop contains no membership check, so
the foreign id is written into the target and the placements object
changes. -/
theorem claim9_counterexample :
    ("zz" ∉ itemIds node3) ∧
    handleDrop (some "zz") (initialPlacements node3.targets) "E" ≠
      initialPlacements node3.targets ∧
    some "zz" ∈ valuesOf
      (handleDrop (some "zz") (initialPlacements node3.targets) "E") :=
  ⟨by decide, by decide, by decide⟩

/-- Claim C9 (amended): handleDrop performs no item-set membership check and
reports no warning — a drop with any truthy dragged id, foreign or not,
assigns that id to the target — but through the component's own event
handlers a foreign drop can never arise: drags start only on rendered node
items, so in every reachable state every assigned value is one of the
node's item ids. -/
theorem claim9_foreign_drop_spec (node : DragDropQuizNode) :
    (∀ (p : Placements) (T d : String), d ∉ itemIds node → d ≠ "" →
      getKey (handleDrop (some d) p T) T = some d) ∧
    (∀ (p : Placements) (dOpt : Option String), ReachUI node p dOpt →
      ∀ i, some i ∈ valuesOf p → i ∈ itemIds node) := by
  constructor
  · intro p T d _ hd
    rw [getKey_handleDrop p T hd]
    unfold dropSpec
    simp
  · intro p dOpt h i hv
    exact (reachUI_inv h).2.2.2 i hv

/-- Witness for C9 at a concrete foreign drop on the example node. -/
theorem claim9_witness :
    getKey (handleDrop (some "zz") (initialPlacements node3.targets) "E") "E"
      = some "zz" :=
  (claim9_foreign_drop_spec node3).1 (initialPlacements node3.targets) "E"
    "zz" (by decide) (by decide)

/-- Claim C10: whenever some target of the node is unassigned (its entry is
null or missing), the correctness check of handleCheckAnswer is false: an
unassigned entry never strict-equals the declared correct item id, so a
check performed before completion can never report success. -/
theorem claim10_incomplete_never_correct {targets : List DragDropQuizTarget}
    {p : Placements} {t : DragDropQuizTarget} (ht : t ∈ targets)
    (hun : getKey p t.id = none) : checkCorrectness targets p = false := by
  rw [Bool.eq_false_iff]
  intro hall
  have h := List.all_eq_true.mp hall t ht
  simp [hun] at h

/-- Witness for C10 at the example node's freshly initialized placements. -/
theorem claim10_witness :
    checkCorrectness node3.targets (initialPlacements node3.targets) = false :=
  @claim10_incomplete_never_correct node3.targets
    (initialPlacements node3.targets) ⟨"E", "Environmental", "a"⟩
    (by decide) (by decide)

/-- Claim C2 (code bug): the component can advance the quiz on incomplete
placements.  Through its own event handlers the user reaches the state pStar
(drop a on E, b on S, c on G, then drag c from G onto the unplaced pool):
there unplacedItems is empty, so allPlaced is true and the check-answer
button is rendered, while target G is unassigned; handleCheckAnswer has no
completeness guard and calls onComplete with the correctness result (false
here), so the submission is not rejected and the quiz advances to
incorrectNextNode on incomplete placements. -/
theorem claim2_premature_submission :
    ReachUI node3 pStar none ∧
    allPlaced node3.items pStar = true ∧
    isComplete node3.targets pStar = false ∧
    checkCorrectness node3.targets pStar = false := by
  refine ⟨?_, by decide, by decide, by decide⟩
  have h0 : ReachUI node3 (initialPlacements node3.targets) none :=
    ReachUI.init
  have h1 := ReachUI.dragStart "a" h0 (by decide)
  have h2 := ReachUI.drop "E" h1 (Or.inl (by decide))
  rw [show handleDrop (some "a") (initialPlacements node3.targets) "E" =
      [("E", some "a"), ("S", none), ("G", none)] from by decide] at h2
  have h3 := ReachUI.dragStart "b" h2 (by decide)
  have h4 := ReachUI.drop "S" h3 (Or.inl (by decide))
  rw [show handleDrop (some "b") [("E", some "a"), ("S", none), ("G", none)]
      "S" = [("E", some "a"), ("S", some "b"), ("G", none)] from by decide]
    at h4
  have h5 := ReachUI.dragStart "c" h4 (by decide)
  have h6 := ReachUI.drop "G" h5 (Or.inl (by decide))
  rw [show handleDrop (some "c")
      [("E", some "a"), ("S", some "b"), ("G", none)] "G" =
      [("E", some "a"), ("S", some "b"), ("G", some "c")] from by decide] at h6
  have h7 := ReachUI.dragStart "c" h6 (by decide)
  have h8 := ReachUI.drop "unplaced" h7 (Or.inr rfl)
  rw [show handleDrop (some "c")
      [("E", some "a"), ("S", some "b"), ("G", some "c")] "unplaced" =
      pStar from by decide] at h8
  exact h8

theorem dropSpec_eq_vac {p : Placements} {d T K : String} (hKT : K ≠ T)
    (h : ∀ e, vacSpec p d T = some e → e ≠ "" →
      ∀ k0, oldTargetKey p d = some k0 → k0 ≠ "" → K ≠ k0) :
    dropSpec p d T K = vacSpec p d K := by
  unfold dropSpec
  rw [if_neg hKT]
  cases hvT : vacSpec p d T with
  | none => rfl
  | some e =>
    by_cases he : e = ""
    · simp [he]
    · cases ho : oldTargetKey p d with
      | none => simp [he]
      | some k0 =>
        by_cases h0 : k0 = ""
        · simp [he, h0]
        · simp [he, h0, h e hvT he k0 ho h0]

theorem dropSpec_swap {p : Placements} {d T K e : String} (hKT : K ≠ T)
    (hvT : vacSpec p d T = some e) (he : e ≠ "")
    (hOld : oldTargetKey p d = some K) (hKne : K ≠ "") :
    dropSpec p d T K = some e := by
  unfold dropSpec
  rw [if_neg hKT]
  cases hvT2 : vacSpec p d T with
  | none =>
    rw [hvT2] at hvT
    cases hvT
  | some e2 =>
    rw [hvT2] at hvT
    have he2 : e2 = e := Option.some.inj hvT
    subst he2
    simp [he, hOld, hKne]

/-- Claim C4: full functional specification of one place operation on a
well-formed placements state (pairwise distinct non-empty keys, no duplicate
and no empty assigned values) and a real key T of the map: with no dragged
item the drop is a no-op and the key set never changes; the dragged item d
is assigned to T and removed from every other key; whatever T previously
held moves into the key d vacated when d came from a key (the swap);
untouched keys keep their values; and when d was previously unplaced, the
item displaced from T disappears from the assigned values, i.e. it becomes
unplaced. -/
theorem claim4_place_spec (p : Placements) (d T : String)
    (hk : (keysOf p).Nodup)
    (hv : (p.filterMap Prod.snd).Nodup)
    (hd : d ≠ "")
    (hkeys : "" ∉ keysOf p)
    (hvals : some "" ∉ valuesOf p)
    (hT : T ∈ keysOf p) :
    handleDrop none p T = p ∧
    keysOf (handleDrop (some d) p T) = keysOf p ∧
    getKey (handleDrop (some d) p T) T = some d ∧
    (∀ K, K ≠ T → getKey (handleDrop (some d) p T) K ≠ some d) ∧
    (∀ K, K ≠ T → getKey p K = some d →
      getKey (handleDrop (some d) p T) K = getKey p T) ∧
    (∀ K, K ≠ T → getKey p K ≠ some d →
      getKey (handleDrop (some d) p T) K = getKey p K) ∧
    ((∀ K, getKey p K ≠ some d) → ∀ e, getKey p T = some e →
      ∀ K, getKey (handleDrop (some d) p T) K ≠ some e) := by
  have hinj : InjOnKeys p := injOnKeys_of_nodupValues hk hv
  refine ⟨rfl, keysOf_handleDrop_of_mem p hd hT, ?_, ?_, ?_, ?_, ?_⟩
  · rw [getKey_handleDrop p T hd]
    unfold dropSpec
    simp
  · intro K hKT hcontra
    rw [getKey_handleDrop p T hd] at hcontra
    rcases dropSpec_eq_some hcontra with ⟨h1, _⟩ | ⟨_, h2, _⟩ | ⟨_, h2, _, _⟩
    · exact hKT h1
    · exact h2 rfl
    · exact h2 rfl
  · intro K hKT hKd
    rw [getKey_handleDrop p T hd]
    by_cases hTd : getKey p T = some d
    · exact absurd (hinj K T d hKd hTd) hKT
    · have hvacT : vacSpec p d T = getKey p T := by
        unfold vacSpec
        rw [if_neg hTd]
      cases hgT : getKey p T with
      | none =>
        have h1 : dropSpec p d T K = vacSpec p d K :=
          dropSpec_eq_vac hKT (by
            intro e he' _ _ _ _
            rw [hvacT, hgT] at he'
            exact Option.noConfusion he')
        rw [h1]
        unfold vacSpec
        rw [if_pos hKd]
      | some e =>
        have hvT : vacSpec p d T = some e := by rw [hvacT, hgT]
        have he : e ≠ "" := fun he' =>
          hvals (he' ▸ List.mem_map_of_mem Prod.snd (getKey_mem hgT))
        have hOld : oldTargetKey p d = some K := oldTargetKey_eq hinj hKd
        have hKmem : K ∈ keysOf p := mem_keysOf_of_getKey (by rw [hKd]; simp)
        have hKne : K ≠ "" := fun h' => hkeys (h' ▸ hKmem)
        rw [dropSpec_swap hKT hvT he hOld hKne]
  · intro K hKT hKd
    rw [getKey_handleDrop p T hd]
    have h1 : dropSpec p d T K = vacSpec p d K :=
      dropSpec_eq_vac hKT (fun e _ _ k0 ho _ h' =>
        hKd (h'.symm ▸ (oldTargetKey_spec ho).1))
    rw [h1]
    unfold vacSpec
    rw [if_neg hKd]
  · intro hnone e hTe K
    rw [getKey_handleDrop p T hd]
    intro hcontra
    rcases dropSpec_eq_some hcontra with
      ⟨_, hb⟩ | ⟨hKT, _, hg⟩ | ⟨_, _, hgd, _⟩
    · exact hnone T (hb ▸ hTe)
    · exact hKT (hinj K T e hg hTe)
    · exact hnone K hgd

/-- Witness for C4 at a concrete well-formed state: dropping b (previously
unplaced) on the empty target S of a map where a sits on E assigns b to S. -/
theorem claim4_witness :
    getKey (handleDrop (some "b")
      [("E", some "a"), ("S", none), ("G", none)] "S") "S" = some "b" :=
  (claim4_place_spec [("E", some "a"), ("S", none), ("G", none)] "b" "S"
    (by decide) (by decide) (by decide) (by decide) (by decide)
    (by decide)).2.2.1

/-- Claim C1 (amended): restricted to the drops the quiz logic is meant for
— dragged ids drawn from the node's item set and drop targets drawn from the
node's real target-id set — and for nodes whose item ids and target ids are
pairwise distinct with exactly as many items as targets, the allPlaced flag
computed from any shuffled arrangement of the items agrees with the
per-target completeness predicate in every reachable state.  As stated the
claim fails (see the counterexample): a drop on the unplaced pool's
pseudo-target inserts an extra key that keeps the item among the values, so
allPlaced can be true while a real target is unassigned. -/
theorem claim1_allPlaced_eq_isComplete (node : DragDropQuizNode)
    (hti : (targetIds node).Nodup) (hii : (itemIds node).Nodup)
    (hlen : node.items.length = node.targets.length)
    (p : Placements) (hr : ReachGood node p)
    (shuffled : List DragDropQuizItem) (hs : shuffled.Perm node.items) :
    allPlaced shuffled p = isComplete node.targets p := by
  obtain ⟨hkeys, hinj, hsubv⟩ := reachGood_inv hti hr
  have hknd : (keysOf p).Nodup := by rw [hkeys]; exact hti
  have hAnodup : ((keysOf p).filterMap (fun k => getKey p k)).Nodup := by
    rw [← filterMap_snd_eq hknd]
    exact nodupValues_of_injOnKeys hknd hinj
  have hAsub : (keysOf p).filterMap (fun k => getKey p k) ⊆ itemIds node := by
    intro i hi
    rcases List.mem_filterMap.mp hi with ⟨k, _, hk⟩
    exact hsubv i (List.mem_map_of_mem Prod.snd (getKey_mem hk))
  have hkl : (keysOf p).length = node.targets.length := by
    rw [hkeys]
    simp [targetIds]
  have hil : (itemIds node).length = node.items.length := by
    simp [itemIds]
  have hallP : allPlaced shuffled p = true ↔
      ∀ i ∈ itemIds node, ∃ k ∈ keysOf p, getKey p k = some i := by
    rw [allPlaced_iff]
    constructor
    · intro h i hi
      rcases List.mem_map.mp hi with ⟨it, hit, he⟩
      have hm := h it (hs.mem_iff.mpr hit)
      rw [he] at hm
      exact (mem_valuesOf_iff hknd).mp hm
    · intro h it hit
      have hit' : it ∈ node.items := hs.mem_iff.mp hit
      obtain ⟨k, hk1, hk2⟩ := h it.id (List.mem_map_of_mem _ hit')
      exact (mem_valuesOf_iff hknd).mpr ⟨k, hk1, hk2⟩
  have hcomp : isComplete node.targets p = true ↔
      ∀ k ∈ keysOf p, getKey p k ≠ none := by
    rw [isComplete_iff]
    constructor
    · intro h k hk
      rw [hkeys] at hk
      rcases List.mem_map.mp hk with ⟨t, ht, he⟩
      rw [← he]
      exact h t ht
    · intro h t ht
      apply h
      rw [hkeys]
      exact List.mem_map_of_mem _ ht
  have dir1 : allPlaced shuffled p = true →
      isComplete node.targets p = true := by
    intro hA
    have hI := hallP.mp hA
    have hsubI : itemIds node ⊆ (keysOf p).filterMap (fun k => getKey p k) := by
      intro i hi
      obtain ⟨k, hk1, hk2⟩ := hI i hi
      exact List.mem_filterMap.mpr ⟨k, hk1, hk2⟩
    have hlen1 : (itemIds node).length ≤
        ((keysOf p).filterMap (fun k => getKey p k)).length :=
      (List.subperm_of_subset hii hsubI).length_le
    have hlen2 := List.length_filterMap_le (fun k => getKey p k) (keysOf p)
    have hfull : ((keysOf p).filterMap (fun k => getKey p k)).length =
        (keysOf p).length := by
      omega
    exact hcomp.mpr (filterMap_full hfull)
  have dir2 : isComplete node.targets p = true →
      allPlaced shuffled p = true := by
    intro hC
    have hfullall := hcomp.mp hC
    have hfull : ((keysOf p).filterMap (fun k => getKey p k)).length =
        (keysOf p).length := filterMap_length_of_full hfullall
    have hsp := List.subperm_of_subset hAnodup hAsub
    have hperm : ((keysOf p).filterMap (fun k => getKey p k)).Perm
        (itemIds node) := by
      apply hsp.perm_of_length_le
      omega
    apply hallP.mpr
    intro i hi
    rcases List.mem_filterMap.mp (hperm.symm.subset hi) with ⟨k, hk1, hk2⟩
    exact ⟨k, hk1, hk2⟩
  cases hA : allPlaced shuffled p with
  | true => rw [dir1 hA]
  | false =>
    cases hC : isComplete node.targets p with
    | true =>
      have hcontra := dir2 hC
      rw [hA] at hcontra
      exact Bool.noConfusion hcontra
    | false => rfl

/-- Witness for C1 at the fully correct reachable state of the example node:
there both the allPlaced flag and per-target completeness are true. -/
theorem claim1_witness :
    allPlaced node3.items pGood = isComplete node3.targets pGood :=
  claim1_allPlaced_eq_isComplete node3 (by decide) (by decide) (by decide)
    pGood
    (ReachGood.drop "c" "G"
      (ReachGood.drop "b" "S"
        (ReachGood.drop "a" "E" ReachGood.init (by decide) (by decide))
        (by decide) (by decide))
      (by decide) (by decide))
    node3.items (List.Perm.refl node3.items)

end ESGChatbot
